import Mathlib

/-!
Verification development for the vid-server repository.

The Go sources are shallowly embedded:
* `parseRangeHeader`, `parseNumber`, `sanitizeFilename` come from `src/handlers.go`;
  Go byte strings are modelled as `List Char` (all relevant inputs are ASCII),
  Go `int64` as `Int`, and a Go runtime panic (negative slice bound) as `none`.
* the in-memory video store (`AddVideo`, `GetVideoByID`, `GetVideoByName`,
  `GetLatestVideo`, `DeleteVideo`) comes from `src/main.go`; Go maps are modelled
  as association lists with update-in-place insertion and key-filtering deletion,
  `time.Time` values as `Int` with `After` as `<` on the opposite side.
* the webhook registry (`AddWebhook`, `RemoveWebhook`, `GetWebhooks`,
  `GetAllWebhooks`) comes from `src/webhooks.go`.
-/

namespace VidServer

/-! ## ByteRangeResolver (src/handlers.go) -/

/-- Whitespace as skipped by `fmt.Sscanf` before a `%d` verb (space, tab,
vertical tab, form feed, carriage return; a newline is NOT skipped — `Sscanf`
treats an unmatched newline as an error, which lands in the no-digit error
path below). -/
def goIsSpace (c : Char) : Bool :=
  c.toNat = 32 ∨ c.toNat = 9 ∨ c.toNat = 11 ∨ c.toNat = 12 ∨ c.toNat = 13

/-- A decimal digit byte, as Go's integer scanner recognizes them. -/
def goIsDigit (c : Char) : Bool :=
  48 ≤ c.toNat ∧ c.toNat ≤ 57

/-- Value of a most-significant-digit-first list of decimal digit characters,
exactly as `fmt.Sscanf`'s integer scanner accumulates it. -/
def digitsVal (l : List Char) : Nat :=
  l.foldl (fun acc c => 10 * acc + (c.toNat - 48)) 0

/-- Go's `strings.Split` for a one-character separator. -/
def goSplit : List Char → Char → List (List Char)
  | [], _ => [[]]
  | c :: rest, sep =>
    if c = sep then [] :: goSplit rest sep
    else
      match goSplit rest sep with
      | [] => [[c]]
      | h :: t => (c :: h) :: t

/-- After the optional sign, `Sscanf`'s `%d` consumes the longest digit run and
errors when it is empty; trailing non-digit input is left unconsumed and is NOT
an error for `Sscanf`. -/
def parseNumberCore (neg : Bool) (s : List Char) : Except Unit Int :=
  let ds := s.takeWhile goIsDigit
  if ds = [] then .error ()
  else .ok (if neg then -(digitsVal ds : Int) else (digitsVal ds : Int))

/-- `parseNumber` from src/handlers.go: `fmt.Sscanf(s, "%d", &n)`.
Skips leading spaces, accepts one optional sign, then requires at least one
digit; ignores anything after the digit run. -/
def parseNumber (s : List Char) : Except Unit Int :=
  match s.dropWhile goIsSpace with
  | [] => .error ()
  | c :: rest =>
    if c = '-' then parseNumberCore true rest
    else if c = '+' then parseNumberCore false rest
    else parseNumberCore false (c :: rest)

/-- The final bounds check of `parseRangeHeader` (src/handlers.go lines
235-238): `start < 0 || start >= fileSize || end < start || end >= fileSize`
rejects, anything else is returned. -/
def validateRange (st en fileSize : Int) : Except Unit (Int × Int) :=
  if st < 0 ∨ fileSize ≤ st ∨ en < st ∨ fileSize ≤ en then .error ()
  else .ok (st, en)

/-- The part-count check and the three sub-forms of `parseRangeHeader`
(src/handlers.go lines 200-233): exactly two dash-separated parts are
required; an empty first part is the suffix form, an empty second part the
open-ended form, otherwise both parts are parsed; each candidate interval then
goes through the final bounds check. -/
def resolveParts (parts : List (List Char)) (fileSize : Int) :
    Except Unit (Int × Int) :=
  match parts with
  | [p0, p1] =>
    if p0 = [] then
      match parseNumber p1 with
      | .error e => .error e
      | .ok n => validateRange (fileSize - n) (fileSize - 1) fileSize
    else if p1 = [] then
      match parseNumber p0 with
      | .error e => .error e
      | .ok st => validateRange st (fileSize - 1) fileSize
    else
      match parseNumber p0, parseNumber p1 with
      | .ok st, .ok en => validateRange st en fileSize
      | .error e, _ => .error e
      | .ok _, .error e => .error e
  | _ => .error ()

/-- `parseRangeHeader` from src/handlers.go: empty header means the full
range; otherwise the header must start with `bytes=` (Go's
`strings.HasPrefix(s, "bytes=")`, stated as `s.take 6 = "bytes="`, which
agrees with it on lists shorter than six as well); the remainder (after
`strings.TrimPrefix`) is split on every `-` and handed to the sub-form
logic. -/
def parseRangeHeader (rangeHeader : List Char) (fileSize : Int) :
    Except Unit (Int × Int) :=
  if rangeHeader = [] then .ok (0, fileSize - 1)
  else if rangeHeader.take 6 = "bytes=".toList then
    resolveParts (goSplit (rangeHeader.drop 6) '-') fileSize
  else .error ()

/-- Go's `strings.ReplaceAll` for one-character patterns. -/
def goReplaceAll (s : List Char) (pat repl : Char) : List Char :=
  s.map (fun c => if c = pat then repl else c)

/-- Go's `filepath.Ext`: the suffix starting at the last dot of the last
path element, empty when there is no dot. -/
def filepathExt (s : List Char) : List Char :=
  let seg := s.reverse.takeWhile (fun c => ¬ c = '/')
  let pre := seg.takeWhile (fun c => ¬ c = '.')
  if pre.length = seg.length then []
  else (seg.take (pre.length + 1)).reverse

/-- `sanitizeFilename` from src/handlers.go. The Go code slices
`filename[:255-len(ext)]`; when `len(ext) > 255` the bound is negative and Go
panics at runtime, which the model returns as `none`. -/
def sanitizeFilename (filename : List Char) : Option (List Char) :=
  let f1 := goReplaceAll (goReplaceAll filename '/' '_') '\\' '_'
  if 255 < f1.length then
    let ext := filepathExt f1
    if (255 : Int) - ext.length < 0 then none
    else some (f1.take (255 - ext.length) ++ ext)
  else some f1

/-! ## MetadataStore (src/main.go) -/

/-- The `Video` record from src/main.go; `time.Time` fields are modelled as
`Int`, with `u.After(v)` as `v < u`. -/
structure Video where
  id : String
  name : String
  size : Int
  contentType : String
  createdAt : Int
  updatedAt : Int
  url : String
deriving DecidableEq, Repr

/-- Go map read `m[k]` (comma-ok form). -/
def mapGet {α : Type} : List (String × α) → String → Option α
  | [], _ => none
  | (k2, v) :: rest, k => if k2 = k then some v else mapGet rest k

/-- Go map write `m[k] = v`: overwrite the existing binding, else add one. -/
def mapInsert {α : Type} : List (String × α) → String → α → List (String × α)
  | [], k, v => [(k, v)]
  | (k2, v2) :: rest, k, v =>
    if k2 = k then (k, v) :: rest else (k2, v2) :: mapInsert rest k v

/-- Go `delete(m, k)`. -/
def mapDelete {α : Type} : List (String × α) → String → List (String × α)
  | [], _ => []
  | (k2, v2) :: rest, k =>
    if k2 = k then mapDelete rest k else (k2, v2) :: mapDelete rest k

/-- The `InMemoryDB` state from src/main.go: primary map, name index, and the
latest-identifier pointer (the disk path and the lock are not part of the
in-memory observable state). -/
structure InMemoryDB where
  videos : List (String × Video)
  nameIndex : List (String × String)
  latestID : String
deriving DecidableEq, Repr

/-- `NewInMemoryDB` with no pre-existing snapshot on disk. -/
def emptyDB : InMemoryDB := ⟨[], [], ""⟩

/-- `AddVideo` from src/main.go (the async `saveToDisk` is external I/O). -/
def AddVideo (db : InMemoryDB) (v : Video) : InMemoryDB :=
  { videos := mapInsert db.videos v.id v
    nameIndex := mapInsert db.nameIndex v.name v.id
    latestID := v.id }

/-- `GetVideoByID` from src/main.go. -/
def GetVideoByID (db : InMemoryDB) (id : String) : Option Video :=
  mapGet db.videos id

/-- `GetVideoByName` from src/main.go: name index first, then primary map. -/
def GetVideoByName (db : InMemoryDB) (name : String) : Option Video :=
  match mapGet db.nameIndex name with
  | none => none
  | some id => mapGet db.videos id

/-- `GetLatestVideo` from src/main.go. -/
def GetLatestVideo (db : InMemoryDB) : Option Video :=
  if db.latestID = "" then none
  else mapGet db.videos db.latestID

/-- `db.videos[id].CreatedAt` as read inside `DeleteVideo`'s scan; a missing
key yields Go's zero `time.Time`, modelled as `0`. -/
def lookupCreatedAt (videos : List (String × Video)) (id : String) : Int :=
  match mapGet videos id with
  | some v => v.createdAt
  | none => 0

/-- One iteration of `DeleteVideo`'s latest-pointer scan:
`if db.latestID == "" || vid.CreatedAt.After(db.videos[db.latestID].CreatedAt)`. -/
def latestStep (videos : List (String × Video)) (best : String)
    (p : String × Video) : String :=
  if best = "" then p.1
  else if lookupCreatedAt videos best < p.2.createdAt then p.1
  else best

/-- The full re-derivation scan over the remaining videos. -/
def rederiveLatest (videos : List (String × Video)) : String :=
  videos.foldl (latestStep videos) ""

/-- `DeleteVideo` from src/main.go: absent id is a `false` no-op; otherwise
remove from the primary map, remove the name-index entry keyed by the deleted
record's name, and re-derive the latest pointer when it pointed at `id`. -/
def DeleteVideo (db : InMemoryDB) (id : String) : InMemoryDB × Bool :=
  match mapGet db.videos id with
  | none => (db, false)
  | some video =>
    let videos2 := mapDelete db.videos id
    let nameIndex2 := mapDelete db.nameIndex video.name
    let latestID2 :=
      if db.latestID = id then rederiveLatest videos2 else db.latestID
    (⟨videos2, nameIndex2, latestID2⟩, true)

/-- Store operations, for stating reachable-state invariants. -/
inductive DBOp where
  | add : Video → DBOp
  | del : String → DBOp

/-- Apply one store operation. -/
def applyOp (db : InMemoryDB) : DBOp → InMemoryDB
  | .add v => AddVideo db v
  | .del id => (DeleteVideo db id).1

/-- Apply a sequence of store operations from left to right. -/
def applyOps (db : InMemoryDB) (ops : List DBOp) : InMemoryDB :=
  ops.foldl applyOp db

/-- The identifiers of the inserted records of an operation sequence. -/
def addIds : List DBOp → List String
  | [] => []
  | .add v :: rest => v.id :: addIds rest
  | .del _ :: rest => addIds rest

/-- Insert a sequence of records in order (repeated `AddVideo`). -/
def insertAll (db : InMemoryDB) (rs : List Video) : InMemoryDB :=
  rs.foldl AddVideo db

/-- The three-structure invariant of the store: every name-index entry points
at a primary-map record carrying that name, primary-map keys are non-empty,
and the latest pointer is empty exactly on the empty store and otherwise
points at a primary-map record. -/
def DBInv (db : InMemoryDB) : Prop :=
  (∀ n id, mapGet db.nameIndex n = some id →
    ∃ v, mapGet db.videos id = some v ∧ v.name = n) ∧
  (∀ p ∈ db.videos, ¬ p.1 = "") ∧
  (db.latestID = "" → db.videos = []) ∧
  (¬ db.latestID = "" → ∃ v, mapGet db.videos db.latestID = some v)

/-! ## WebhookRegistry (src/webhooks.go) -/

/-- The `WebhookManager` state from src/webhooks.go: the event → urls map
(the disk path and the lock are not part of the in-memory observable state). -/
structure WebhookManager where
  webhooks : List (String × List String)
deriving DecidableEq, Repr

/-- `NewWebhookManager` with no pre-existing snapshot on disk. -/
def emptyWM : WebhookManager := ⟨[]⟩

/-- Go's read `wm.webhooks[event]`: a missing key yields the nil slice. -/
def wmGet (wm : WebhookManager) (event : String) : List String :=
  (mapGet wm.webhooks event).getD []

/-- `AddWebhook` from src/webhooks.go: return unchanged if the url is already
registered for the event, else append it. -/
def AddWebhook (wm : WebhookManager) (event url : String) : WebhookManager :=
  if url ∈ wmGet wm event then wm
  else ⟨mapInsert wm.webhooks event (wmGet wm event ++ [url])⟩

/-- `RemoveWebhook` from src/webhooks.go: filter the url out of the event's
list and write the result back — the write-back happens even when the event
had no entry at all. -/
def RemoveWebhook (wm : WebhookManager) (event url : String) : WebhookManager :=
  ⟨mapInsert wm.webhooks event
    ((wmGet wm event).filter (fun u => ¬ u = url))⟩

/-- `GetWebhooks` from src/webhooks.go (the defensive copy is the identity in
a pure model). -/
def GetWebhooks (wm : WebhookManager) (event : String) : List String :=
  wmGet wm event

/-- `GetAllWebhooks` from src/webhooks.go (defensive copy of the whole map). -/
def GetAllWebhooks (wm : WebhookManager) : List (String × List String) :=
  wm.webhooks

/-! ## Association-list map lemmas -/

theorem mapGet_mapInsert_self {α : Type} (l : List (String × α)) (k : String)
    (v : α) : mapGet (mapInsert l k v) k = some v := by
  induction l with
  | nil => simp [mapInsert, mapGet]
  | cons p rest ih =>
    obtain ⟨k2, v2⟩ := p
    by_cases h : k2 = k
    · simp [mapInsert, h, mapGet]
    · simp [mapInsert, h, mapGet, ih]

theorem mapGet_mapInsert_ne {α : Type} (l : List (String × α)) (k k2 : String)
    (v : α) (h : ¬ k2 = k) : mapGet (mapInsert l k v) k2 = mapGet l k2 := by
  have h2 : ¬ k = k2 := fun hh => h hh.symm
  induction l with
  | nil => simp [mapInsert, mapGet, h2]
  | cons p rest ih =>
    obtain ⟨k3, v3⟩ := p
    by_cases h3 : k3 = k
    · subst h3
      simp [mapInsert, mapGet, h2]
    · simp only [mapInsert, if_neg h3]
      by_cases h4 : k3 = k2
      · simp [mapGet, h4]
      · simp [mapGet, h4, ih]

theorem mapGet_mapDelete_self {α : Type} (l : List (String × α)) (k : String) :
    mapGet (mapDelete l k) k = none := by
  induction l with
  | nil => simp [mapDelete, mapGet]
  | cons p rest ih =>
    obtain ⟨k2, v2⟩ := p
    by_cases h : k2 = k
    · simp [mapDelete, h, ih]
    · simp [mapDelete, h, mapGet, ih]

theorem mapGet_mapDelete_ne {α : Type} (l : List (String × α)) (k k2 : String)
    (h : ¬ k2 = k) : mapGet (mapDelete l k) k2 = mapGet l k2 := by
  have h2 : ¬ k = k2 := fun hh => h hh.symm
  induction l with
  | nil => simp [mapDelete]
  | cons p rest ih =>
    obtain ⟨k3, v3⟩ := p
    by_cases h3 : k3 = k
    · subst h3
      simp [mapDelete, mapGet, h2, ih]
    · by_cases h4 : k3 = k2
      · simp [mapDelete, h3, mapGet, h4, h]
      · simp [mapDelete, h3, mapGet, h4, ih]

theorem mem_mapInsert {α : Type} (l : List (String × α)) (k : String) (v : α)
    (p : String × α) (hp : p ∈ mapInsert l k v) : p ∈ l ∨ p = (k, v) := by
  induction l with
  | nil =>
    simp only [mapInsert, List.mem_singleton] at hp
    exact Or.inr hp
  | cons q rest ih =>
    obtain ⟨k2, v2⟩ := q
    by_cases h2 : k2 = k
    · simp only [mapInsert, if_pos h2, List.mem_cons] at hp
      rcases hp with hp | hp
      · exact Or.inr hp
      · exact Or.inl (List.mem_cons_of_mem _ hp)
    · simp only [mapInsert, if_neg h2, List.mem_cons] at hp
      rcases hp with hp | hp
      · exact Or.inl (by simp [hp])
      · rcases ih hp with h3 | h3
        · exact Or.inl (List.mem_cons_of_mem _ h3)
        · exact Or.inr h3

theorem mem_mapDelete {α : Type} (l : List (String × α)) (k : String)
    (p : String × α) (hp : p ∈ mapDelete l k) : p ∈ l := by
  induction l with
  | nil => simp [mapDelete] at hp
  | cons q rest ih =>
    obtain ⟨k2, v2⟩ := q
    by_cases h2 : k2 = k
    · simp only [mapDelete, if_pos h2] at hp
      exact List.mem_cons_of_mem _ (ih hp)
    · simp only [mapDelete, if_neg h2, List.mem_cons] at hp
      rcases hp with hp | hp
      · simp [hp]
      · exact List.mem_cons_of_mem _ (ih hp)

theorem mapGet_some_of_mem {α : Type} (l : List (String × α)) (k : String)
    (h : ∃ p ∈ l, p.1 = k) : ∃ v, mapGet l k = some v := by
  induction l with
  | nil => simp at h
  | cons q rest ih =>
    obtain ⟨k2, v2⟩ := q
    by_cases h2 : k2 = k
    · exact ⟨v2, by simp [mapGet, h2]⟩
    · obtain ⟨p, hp, hpk⟩ := h
      rw [List.mem_cons] at hp
      rcases hp with hp | hp
      · subst hp; exact absurd hpk h2
      · obtain ⟨v, hv⟩ := ih ⟨p, hp, hpk⟩
        exact ⟨v, by simp [mapGet, h2, hv]⟩

theorem mapInsert_fresh {α : Type} (l : List (String × α)) (k : String) (v : α)
    (h : mapGet l k = none) : mapInsert l k v = l ++ [(k, v)] := by
  induction l with
  | nil => simp [mapInsert]
  | cons q rest ih =>
    obtain ⟨k2, v2⟩ := q
    by_cases h2 : k2 = k
    · simp [mapGet, h2] at h
    · simp only [mapGet, if_neg h2] at h
      simp [mapInsert, h2, ih h]

theorem mapInsert_same {α : Type} (l : List (String × α)) (k : String) (v : α)
    (h : mapGet l k = some v) : mapInsert l k v = l := by
  induction l with
  | nil => simp [mapGet] at h
  | cons q rest ih =>
    obtain ⟨k2, v2⟩ := q
    by_cases h2 : k2 = k
    · simp only [mapGet, if_pos h2] at h
      simp [mapInsert, h2, Option.some.inj h]
    · simp only [mapGet, if_neg h2] at h
      simp [mapInsert, h2, ih h]

theorem mapGet_none_iff {α : Type} (l : List (String × α)) (k : String) :
    mapGet l k = none ↔ ∀ p ∈ l, ¬ p.1 = k := by
  induction l with
  | nil => simp [mapGet]
  | cons q rest ih =>
    obtain ⟨k2, v2⟩ := q
    by_cases h2 : k2 = k
    · simp [mapGet, h2]
    · simp [mapGet, h2, ih]

/-! ## Claim C8: delete semantics -/

/-- Claim C8 (confirmed): `DeleteVideo` of an absent id returns false and
leaves the store unchanged; of a present id it returns true, and afterwards
lookup by that id and lookup by the deleted record's name both report
not-found. -/
theorem c8_delete_removes_both_indexes (db : InMemoryDB) (id : String) :
    (mapGet db.videos id = none → DeleteVideo db id = (db, false)) ∧
    (∀ v, mapGet db.videos id = some v →
      (DeleteVideo db id).2 = true ∧
      GetVideoByID (DeleteVideo db id).1 id = none ∧
      GetVideoByName (DeleteVideo db id).1 v.name = none) := by
  constructor
  · intro h
    simp [DeleteVideo, h]
  · intro v h
    refine ⟨by simp [DeleteVideo, h], ?_, ?_⟩
    · simp [DeleteVideo, h, GetVideoByID, mapGet_mapDelete_self]
    · simp [DeleteVideo, h, GetVideoByName, mapGet_mapDelete_self]

theorem c8_delete_removes_both_indexes_witness :
    DeleteVideo emptyDB ("a") = (emptyDB, false) ∧
    ((DeleteVideo (AddVideo emptyDB ⟨"a", "n", 1, "t", 1, 1, "u"⟩) ("a")).2
        = true ∧
      GetVideoByID
        (DeleteVideo (AddVideo emptyDB ⟨"a", "n", 1, "t", 1, 1, "u"⟩) ("a")).1
        ("a") = none ∧
      GetVideoByName
        (DeleteVideo (AddVideo emptyDB ⟨"a", "n", 1, "t", 1, 1, "u"⟩) ("a")).1
        ("n") = none) := by
  refine ⟨(c8_delete_removes_both_indexes emptyDB ("a")).1 rfl, ?_⟩
  exact (c8_delete_removes_both_indexes
    (AddVideo emptyDB ⟨"a", "n", 1, "t", 1, 1, "u"⟩) ("a")).2
    ⟨"a", "n", 1, "t", 1, 1, "u"⟩ rfl

/-! ## Claim C3: name collisions and delete -/

/-- Claim C3 (code bug): insert r1 = (id "a", name "n"), then r2 = (id "b",
name "n"); getByName "n" does return r2 (last writer wins), but after
delete("a") the surviving record r2 is still in the primary map while
getByName "n" reports not-found: `DeleteVideo` removed the name-index entry
keyed by the deleted record's name even though that entry pointed at r2. -/
theorem c3_delete_clobbers_survivor_name :
    GetVideoByName
        (AddVideo (AddVideo emptyDB ⟨"a", "n", 1, "t", 1, 1, "w"⟩)
          ⟨"b", "n", 2, "t", 2, 2, "w"⟩) ("n")
      = some ⟨"b", "n", 2, "t", 2, 2, "w"⟩ ∧
    (DeleteVideo
        (AddVideo (AddVideo emptyDB ⟨"a", "n", 1, "t", 1, 1, "w"⟩)
          ⟨"b", "n", 2, "t", 2, 2, "w"⟩) ("a")).2 = true ∧
    GetVideoByID
        (DeleteVideo
          (AddVideo (AddVideo emptyDB ⟨"a", "n", 1, "t", 1, 1, "w"⟩)
            ⟨"b", "n", 2, "t", 2, 2, "w"⟩) ("a")).1 ("b")
      = some ⟨"b", "n", 2, "t", 2, 2, "w"⟩ ∧
    GetVideoByName
        (DeleteVideo
          (AddVideo (AddVideo emptyDB ⟨"a", "n", 1, "t", 1, 1, "w"⟩)
            ⟨"b", "n", 2, "t", 2, 2, "w"⟩) ("a")).1 ("n")
      = none :=
  ⟨rfl, rfl, rfl, rfl⟩

/-! ## Claim C4: filename sanitization -/

set_option maxRecDepth 4000 in
/-- Claim C4 (code bug): on a 300-byte filename consisting of one long
extension, `filepath.Ext` returns the whole name, the Go slice bound
`255-len(ext)` is negative, and `filename[:255-len(ext)]` panics at runtime
(modelled as `none`) — the function neither terminates normally nor returns a
truncated name. -/
theorem c4_sanitize_panics_on_long_extension :
    sanitizeFilename ('.' :: List.replicate 299 'a') = none := rfl

/-! ## Claim C6: insert-then-get round trip -/

/-- Claim C6 counterexample: the record ⟨"", "n", ...⟩ has an identifier that
is absent from the empty store, yet immediately after inserting it
`GetLatestVideo` reports not-found, because the store uses the empty string as
its "no latest video" sentinel. -/
theorem c6_insert_get_roundtrip_cex :
    mapGet emptyDB.videos ("") = none ∧
    GetLatestVideo (AddVideo emptyDB ⟨"", "n", 1, "t", 1, 1, "u"⟩) = none :=
  ⟨rfl, rfl⟩

/-- Claim C6 (amended): for every record with a NON-empty identifier that is
not already present, immediately after `AddVideo` the three lookups
`GetVideoByID`, `GetVideoByName` and `GetLatestVideo` all return the record. -/
theorem c6_insert_get_roundtrip (db : InMemoryDB) (r : Video)
    (hid : ¬ r.id = "") (hfresh : mapGet db.videos r.id = none) :
    GetVideoByID (AddVideo db r) r.id = some r ∧
    GetVideoByName (AddVideo db r) r.name = some r ∧
    GetLatestVideo (AddVideo db r) = some r := by
  refine ⟨?_, ?_, ?_⟩
  · simp [GetVideoByID, AddVideo, mapGet_mapInsert_self]
  · simp [GetVideoByName, AddVideo, mapGet_mapInsert_self]
  · simp [GetLatestVideo, AddVideo, hid, mapGet_mapInsert_self]

theorem c6_insert_get_roundtrip_witness :
    GetVideoByID (AddVideo emptyDB ⟨"a", "n", 1, "t", 1, 1, "u"⟩) ("a")
      = some ⟨"a", "n", 1, "t", 1, 1, "u"⟩ ∧
    GetVideoByName (AddVideo emptyDB ⟨"a", "n", 1, "t", 1, 1, "u"⟩) ("n")
      = some ⟨"a", "n", 1, "t", 1, 1, "u"⟩ ∧
    GetLatestVideo (AddVideo emptyDB ⟨"a", "n", 1, "t", 1, 1, "u"⟩)
      = some ⟨"a", "n", 1, "t", 1, 1, "u"⟩ :=
  c6_insert_get_roundtrip emptyDB ⟨"a", "n", 1, "t", 1, 1, "u"⟩
    (by decide) rfl

/-! ## Claim C9: webhook subscription idempotence -/

/-- Claim C9 counterexample: unsubscribing a pair for an event that has no
entry at all is not a no-op on the observable registry state — the write-back
`wm.webhooks[event] = newUrls` creates the event key with an empty url list,
so the listAll mapping (its key set) changes. -/
theorem c9_subscribe_unsubscribe_cex :
    GetAllWebhooks (RemoveWebhook emptyWM ("a") ("u"))
      ≠ GetAllWebhooks emptyWM := by
  decide

/-- Claim C9 (amended): subscribing twice leaves the url in the event's list
exactly once (from any state whose list holds it at most once, as every
reachable state does); unsubscribing an absent pair changes no event's url
list and is a full state no-op when the event already has an entry, but when
the event is absent it appends an entry carrying the empty list, growing the
key set of the listAll mapping by that event. -/
theorem c9_subscribe_idempotent_unsubscribe (wm : WebhookManager)
    (e u : String) :
    ((wmGet wm e).count u ≤ 1 →
      (GetWebhooks (AddWebhook (AddWebhook wm e u) e u) e).count u = 1) ∧
    (u ∉ wmGet wm e →
      (∀ e2, wmGet (RemoveWebhook wm e u) e2 = wmGet wm e2) ∧
      (∀ l, mapGet wm.webhooks e = some l → RemoveWebhook wm e u = wm) ∧
      (mapGet wm.webhooks e = none →
        (RemoveWebhook wm e u).webhooks = wm.webhooks ++ [(e, [])])) := by
  constructor
  · intro hcount
    by_cases hu : u ∈ wmGet wm e
    · have h1 : AddWebhook wm e u = wm := by
        simp [AddWebhook, hu]
      rw [h1, h1]
      have hz : ¬ (wmGet wm e).count u = 0 :=
        fun h0 => (List.count_eq_zero.mp h0) hu
      simp only [GetWebhooks]
      omega
    · have h1 : AddWebhook wm e u
          = ⟨mapInsert wm.webhooks e (wmGet wm e ++ [u])⟩ := by
        simp [AddWebhook, hu]
      have h2 : wmGet (AddWebhook wm e u) e = wmGet wm e ++ [u] := by
        rw [h1]; simp [wmGet, mapGet_mapInsert_self]
      have hmem : u ∈ wmGet (AddWebhook wm e u) e := by
        rw [h2]; simp
      have h3 : ∀ wm1 : WebhookManager, u ∈ wmGet wm1 e →
          AddWebhook wm1 e u = wm1 := by
        intro wm1 hm
        simp [AddWebhook, hm]
      rw [GetWebhooks, h3 _ hmem, h2]
      simp [List.count_append, List.count_eq_zero.mpr hu]
  · intro hu
    have hfil : (wmGet wm e).filter (fun x => ¬ x = u) = wmGet wm e := by
      apply List.filter_eq_self.mpr
      intro a ha
      simp only [decide_eq_true_eq]
      exact fun hh => hu (hh ▸ ha)
    refine ⟨?_, ?_, ?_⟩
    · intro e2
      by_cases he2 : e2 = e
      · subst he2
        show (mapGet (mapInsert wm.webhooks e2
            ((wmGet wm e2).filter (fun x => ¬ x = u))) e2).getD []
          = wmGet wm e2
        rw [mapGet_mapInsert_self, Option.getD_some, hfil]
      · show (mapGet (mapInsert wm.webhooks e
            ((wmGet wm e).filter (fun x => ¬ x = u))) e2).getD []
          = wmGet wm e2
        rw [mapGet_mapInsert_ne _ _ _ _ he2]
        rfl
    · intro l hl
      have hget : wmGet wm e = l := by simp [wmGet, hl]
      show WebhookManager.mk
        (mapInsert wm.webhooks e ((wmGet wm e).filter (fun x => ¬ x = u))) = wm
      rw [hfil, hget, mapInsert_same _ _ _ hl]
    · intro hl
      have hget : wmGet wm e = [] := by simp [wmGet, hl]
      show (WebhookManager.mk
        (mapInsert wm.webhooks e
          ((wmGet wm e).filter (fun x => ¬ x = u)))).webhooks
        = wm.webhooks ++ [(e, [])]
      rw [hfil, hget, mapInsert_fresh _ _ _ hl]

theorem c9_subscribe_idempotent_unsubscribe_witness :
    (GetWebhooks (AddWebhook (AddWebhook emptyWM ("e") ("u")) ("e") ("u"))
        ("e")).count ("u") = 1 ∧
    (∀ e2, wmGet (RemoveWebhook emptyWM ("e") ("u")) e2 = wmGet emptyWM e2) :=
  ⟨(c9_subscribe_idempotent_unsubscribe emptyWM ("e") ("u")).1 (by decide),
    ((c9_subscribe_idempotent_unsubscribe emptyWM ("e") ("u")).2
      (by decide)).1⟩

/-! ## goSplit lemmas -/

theorem goSplit_length (l : List Char) (sep : Char) :
    (goSplit l sep).length = l.count sep + 1 := by
  induction l with
  | nil => simp [goSplit]
  | cons c rest ih =>
    by_cases h : c = sep
    · subst h
      have hs : goSplit (c :: rest) c = [] :: goSplit rest c := by
        simp [goSplit]
      rw [hs, List.length_cons, ih, List.count_cons_self]
    · have h2 : ¬ sep = c := fun hh2 => h hh2.symm
      have hcnt : (c :: rest).count sep = rest.count sep := by
        simp [List.count_cons, h2]
      cases hg : goSplit rest sep with
      | nil => rw [hg] at ih; simp at ih
      | cons hh tt =>
        rw [hg] at ih
        have hs : goSplit (c :: rest) sep = (c :: hh) :: tt := by
          simp [goSplit, h, hg]
        rw [hs, List.length_cons, hcnt, ← ih, List.length_cons]

/-- A rfl-level stepping lemma: once the `bytes=` prefix is present,
`parseRangeHeader` is the sub-form logic applied to the dash-split of the
remainder. -/
theorem parseRangeHeader_bytes (rest : List Char) (t : Int) :
    parseRangeHeader ("bytes=".toList ++ rest) t
      = resolveParts (goSplit rest '-') t := rfl

/-! ## Claim C2: multi-range rejection -/

/-- Claim C2 counterexample: the comma-separated header bytes=0-5,10 is NOT
rejected — `Sscanf` parses the second dash-part `5,10` as 5 and the resolver
returns the first listed range (0, 5) against total length 20. -/
theorem c2_multirange_cex :
    parseRangeHeader "bytes=0-5,10".toList 20 = .ok (0, 5) := rfl

/-- Claim C2 (amended): any header whose remainder after `bytes=` contains at
least two dashes — in particular every comma-separated list of two or more
dash-ranges such as bytes=0-5,10-15 — is rejected for every total length,
because the dash-split yields more than two parts; however a comma inside the
second dash-part is not rejected: bytes=0-5,10 resolves to the first listed
range (0, 5) for every total ≥ 6. -/
theorem c2_multirange_rejected (t : Int) :
    (∀ rest : List Char, 2 ≤ rest.count '-' →
      parseRangeHeader ("bytes=".toList ++ rest) t = .error ()) ∧
    (6 ≤ t → parseRangeHeader "bytes=0-5,10".toList t = .ok (0, 5)) := by
  constructor
  · intro rest h2
    rw [parseRangeHeader_bytes]
    have hl : 3 ≤ (goSplit rest '-').length := by
      rw [goSplit_length]; omega
    rcases hg : goSplit rest '-' with _ | ⟨p0, _ | ⟨p1, _ | ⟨p2, tl⟩⟩⟩
    · rw [hg] at hl; simp at hl
    · rw [hg] at hl; simp at hl
    · rw [hg] at hl; simp at hl
    · rfl
  · intro ht
    rw [show "bytes=0-5,10".toList = "bytes=".toList ++ "0-5,10".toList
      from rfl]
    rw [parseRangeHeader_bytes]
    rw [show goSplit "0-5,10".toList '-' = [['0'], ['5', ',', '1', '0']]
      from rfl]
    rw [show resolveParts [['0'], ['5', ',', '1', '0']] t
      = validateRange 0 5 t from rfl]
    unfold validateRange
    rw [if_neg (by omega)]

theorem c2_multirange_rejected_witness :
    parseRangeHeader ("bytes=".toList ++ "0-5,10-15".toList) 32 = .error () ∧
    parseRangeHeader "bytes=0-5,10".toList 32 = .ok (0, 5) :=
  ⟨(c2_multirange_rejected 32).1 ("0-5,10-15".toList) (by decide),
    (c2_multirange_rejected 32).2 (by norm_num)⟩

/-! ## Claim C10: zero-length resource -/

theorem validateRange_zero (st en : Int) : validateRange st en 0 = .error () := by
  have h : st < 0 ∨ (0 : Int) ≤ st ∨ en < st ∨ (0 : Int) ≤ en := by omega
  unfold validateRange
  rw [if_pos h]

theorem resolveParts_zero (parts : List (List Char)) :
    resolveParts parts 0 = .error () := by
  rcases parts with _ | ⟨p0, _ | ⟨p1, _ | ⟨p2, tl⟩⟩⟩
  · rfl
  · rfl
  · simp only [resolveParts]
    by_cases h0 : p0 = []
    · rw [if_pos h0]
      cases hp : parseNumber p1 with
      | error e => rfl
      | ok n => exact validateRange_zero _ _
    · rw [if_neg h0]
      by_cases h1 : p1 = []
      · rw [if_pos h1]
        cases hp : parseNumber p0 with
        | error e => rfl
        | ok st => exact validateRange_zero _ _
      · rw [if_neg h1]
        cases hp0 : parseNumber p0 with
        | error e => rfl
        | ok st =>
          cases hp1 : parseNumber p1 with
          | error e => rfl
          | ok en => exact validateRange_zero _ _
  · rfl

theorem eq_append_of_take_six {l : List Char}
    (h : l.take 6 = "bytes=".toList) : ∃ rest, l = "bytes=".toList ++ rest := by
  refine ⟨l.drop 6, ?_⟩
  conv_lhs => rw [← List.take_append_drop 6 l]
  rw [h]

/-- Claim C10 (confirmed): against a zero-length resource every non-empty
Range header value is rejected (any computed start fails the bounds check
against total 0), while the empty header still yields the degenerate full
range (0, -1). -/
theorem c10_zero_total_rejects (h : List Char) (hne : ¬ h = []) :
    parseRangeHeader h 0 = .error () ∧
    parseRangeHeader [] 0 = .ok (0, -1) := by
  refine ⟨?_, rfl⟩
  by_cases hpre : h.take 6 = "bytes=".toList
  · obtain ⟨rest, rfl⟩ := eq_append_of_take_six hpre
    rw [parseRangeHeader_bytes]
    exact resolveParts_zero _
  · simp only [parseRangeHeader]
    rw [if_neg hne, if_neg hpre]

theorem c10_zero_total_rejects_witness :
    parseRangeHeader ("bytes=0-0".toList) 0 = .error () ∧
    parseRangeHeader [] 0 = .ok (0, -1) :=
  c10_zero_total_rejects ("bytes=0-0".toList) (by decide)

/-! ## Digit and parseNumber lemmas -/

theorem goIsDigit_ne_dash {c : Char} (h : goIsDigit c = true) : ¬ c = '-' := by
  intro hc
  rw [hc] at h
  exact absurd h (by decide)

theorem goIsDigit_ne_plus {c : Char} (h : goIsDigit c = true) : ¬ c = '+' := by
  intro hc
  rw [hc] at h
  exact absurd h (by decide)

theorem goIsDigit_not_space {c : Char} (h : goIsDigit c = true) :
    goIsSpace c = false := by
  simp only [goIsDigit, decide_eq_true_eq] at h
  simp only [goIsSpace, decide_eq_false_iff_not]
  omega

theorem not_mem_dash_of_digits {d : List Char}
    (hdig : ∀ c ∈ d, goIsDigit c = true) : '-' ∉ d :=
  fun hmem => absurd (hdig _ hmem) (fun h => goIsDigit_ne_dash h rfl)

theorem parseNumber_digits {d : List Char} (hne : ¬ d = [])
    (hdig : ∀ c ∈ d, goIsDigit c = true) :
    parseNumber d = .ok (digitsVal d) := by
  cases d with
  | nil => exact absurd rfl hne
  | cons c rest =>
    have hc := hdig c (by simp)
    have hdrop : (c :: rest).dropWhile goIsSpace = c :: rest := by
      simp [List.dropWhile_cons, goIsDigit_not_space hc]
    simp only [parseNumber, hdrop, if_neg (goIsDigit_ne_dash hc),
      if_neg (goIsDigit_ne_plus hc), parseNumberCore,
      List.takeWhile_eq_self_iff.mpr hdig]
    simp

theorem parseNumber_no_digit {s : List Char}
    (h : ∀ c ∈ s, goIsDigit c = false) : parseNumber s = .error () := by
  have hsub : ∀ c ∈ s.dropWhile goIsSpace, goIsDigit c = false :=
    fun c hc => h c ((List.dropWhile_sublist goIsSpace).mem hc)
  have hcore : ∀ (b : Bool) (l : List Char),
      (∀ x ∈ l, goIsDigit x = false) → parseNumberCore b l = .error () := by
    intro b l hl
    cases l with
    | nil => rfl
    | cons d ds =>
      have hd : (d :: ds).takeWhile goIsDigit = [] := by
        simp [List.takeWhile_cons, hl d (by simp)]
      simp [parseNumberCore, hd]
  cases hs : s.dropWhile goIsSpace with
  | nil => simp [parseNumber, hs]
  | cons c rest =>
    rw [hs] at hsub
    have htail : ∀ x ∈ rest, goIsDigit x = false :=
      fun x hx => hsub x (by simp [hx])
    simp only [parseNumber, hs]
    by_cases hc1 : c = '-'
    · rw [if_pos hc1]
      exact hcore _ _ htail
    · rw [if_neg hc1]
      by_cases hc2 : c = '+'
      · rw [if_pos hc2]
        exact hcore _ _ htail
      · rw [if_neg hc2]
        exact hcore _ _ hsub

/-! ## More goSplit lemmas -/

theorem goSplit_no_sep {l : List Char} {sep : Char} (h : sep ∉ l) :
    goSplit l sep = [l] := by
  induction l with
  | nil => rfl
  | cons c rest ih =>
    have hc : ¬ c = sep := fun hh => h (by simp [hh])
    have hr : sep ∉ rest := fun hh => h (by simp [hh])
    simp [goSplit, hc, ih hr]

theorem goSplit_append {l1 l2 : List Char} {sep : Char} (h : sep ∉ l1) :
    goSplit (l1 ++ sep :: l2) sep = l1 :: goSplit l2 sep := by
  induction l1 with
  | nil => simp [goSplit]
  | cons c rest ih =>
    have hc : ¬ c = sep := fun hh => h (by simp [hh])
    have hr : sep ∉ rest := fun hh => h (by simp [hh])
    simp [goSplit, hc, ih hr]

theorem goSplit_mem_mem {l : List Char} {sep : Char} :
    ∀ p ∈ goSplit l sep, ∀ c ∈ p, c ∈ l := by
  induction l with
  | nil =>
    intro p hp c hc
    simp [goSplit] at hp
    subst hp
    simp at hc
  | cons a rest ih =>
    intro p hp c hc
    by_cases ha : a = sep
    · subst ha
      have hs : goSplit (a :: rest) a = [] :: goSplit rest a := by
        simp [goSplit]
      rw [hs, List.mem_cons] at hp
      rcases hp with rfl | hp
      · simp at hc
      · exact List.mem_cons_of_mem _ (ih p hp c hc)
    · cases hg : goSplit rest sep with
      | nil =>
        have hs : goSplit (a :: rest) sep = [[a]] := by
          simp [goSplit, ha, hg]
        rw [hs, List.mem_singleton] at hp
        subst hp
        rw [List.mem_singleton] at hc
        subst hc
        simp
      | cons hh tt =>
        have hs : goSplit (a :: rest) sep = (a :: hh) :: tt := by
          simp [goSplit, ha, hg]
        rw [hs, List.mem_cons] at hp
        rcases hp with rfl | hp
        · rw [List.mem_cons] at hc
          rcases hc with rfl | hc
          · simp
          · exact List.mem_cons_of_mem _ (ih hh (by rw [hg]; simp) c hc)
        · exact List.mem_cons_of_mem _ (ih p (by rw [hg]; simp [hp]) c hc)

/-! ## validateRange and resolveParts reduction lemmas -/

theorem validateRange_ok {st en t : Int} (h1 : 0 ≤ st) (h2 : st ≤ en)
    (h3 : en < t) : validateRange st en t = .ok (st, en) := by
  have hc : ¬ (st < 0 ∨ t ≤ st ∨ en < st ∨ t ≤ en) := by omega
  unfold validateRange
  rw [if_neg hc]

theorem validateRange_err {st en t : Int}
    (h : st < 0 ∨ t ≤ st ∨ en < st ∨ t ≤ en) :
    validateRange st en t = .error () := by
  unfold validateRange
  rw [if_pos h]

theorem resolveParts_suffix (p1 : List Char) (t : Int) :
    resolveParts [[], p1] t =
      match parseNumber p1 with
      | .error e => .error e
      | .ok n => validateRange (t - n) (t - 1) t := rfl

theorem resolveParts_open (p0 : List Char) (h : ¬ p0 = []) (t : Int) :
    resolveParts [p0, []] t =
      match parseNumber p0 with
      | .error e => .error e
      | .ok st => validateRange st (t - 1) t := by
  simp only [resolveParts, if_neg h]
  rfl

theorem resolveParts_both (p0 p1 : List Char) (h0 : ¬ p0 = [])
    (h1 : ¬ p1 = []) (t : Int) :
    resolveParts [p0, p1] t =
      match parseNumber p0, parseNumber p1 with
      | .ok st, .ok en => validateRange st en t
      | .error e, _ => .error e
      | .ok _, .error e => .error e := by
  simp only [resolveParts, if_neg h0, if_neg h1]

/-! ## Claim C1: the range resolver against its reference definition -/

/-- Claim C1 counterexample: bytes=0-5x contains the non-numeric part `5x`,
yet it is not rejected: `Sscanf` parses the leading 5, ignores the trailing
`x`, and the resolver returns (0, 5) against total length 10. -/
theorem c1_range_resolver_cex :
    parseRangeHeader "bytes=0-5x".toList 10 = .ok (0, 5) := rfl

/-- Claim C1 (amended): for every total > 0 — the empty header resolves to the
full range; `bytes=start-end` resolves to (start, end) for every pair of
decimal numerals with 0 ≤ start ≤ end < total; `bytes=N-` resolves to
(N, total-1) for 0 ≤ N < total and is rejected for N ≥ total; `bytes=-N`
resolves to (total-N, total-1) for 0 < N ≤ total and is rejected for
N > total; every non-empty header lacking the `bytes=` prefix is rejected, and
every `bytes=` header whose remainder contains no decimal digit at all is
rejected.  (Unlike the original claim, a dash-part that merely CONTAINS
non-numeric characters after a leading numeral is parsed as that numeral, as
the counterexample shows.) -/
theorem c1_range_resolver_amended (t : Int) (ht : 0 < t) :
    parseRangeHeader [] t = .ok (0, t - 1) ∧
    (∀ d1 d2 : List Char, ¬ d1 = [] → ¬ d2 = [] →
      (∀ c ∈ d1, goIsDigit c = true) → (∀ c ∈ d2, goIsDigit c = true) →
      (digitsVal d1 : Int) ≤ (digitsVal d2 : Int) → (digitsVal d2 : Int) < t →
      parseRangeHeader ("bytes=".toList ++ (d1 ++ '-' :: d2)) t
        = .ok (digitsVal d1, digitsVal d2)) ∧
    (∀ d : List Char, ¬ d = [] → (∀ c ∈ d, goIsDigit c = true) →
      ((digitsVal d : Int) < t →
        parseRangeHeader ("bytes=".toList ++ (d ++ ['-'])) t
          = .ok (digitsVal d, t - 1)) ∧
      (t ≤ (digitsVal d : Int) →
        parseRangeHeader ("bytes=".toList ++ (d ++ ['-'])) t = .error ())) ∧
    (∀ d : List Char, ¬ d = [] → (∀ c ∈ d, goIsDigit c = true) →
      ((0 : Int) < (digitsVal d : Int) → (digitsVal d : Int) ≤ t →
        parseRangeHeader ("bytes=".toList ++ '-' :: d) t
          = .ok (t - digitsVal d, t - 1)) ∧
      (t < (digitsVal d : Int) →
        parseRangeHeader ("bytes=".toList ++ '-' :: d) t = .error ())) ∧
    (∀ h : List Char, ¬ h = [] → ¬ h.take 6 = "bytes=".toList →
      parseRangeHeader h t = .error ()) ∧
    (∀ rest : List Char, (∀ c ∈ rest, goIsDigit c = false) →
      parseRangeHeader ("bytes=".toList ++ rest) t = .error ()) := by
  refine ⟨rfl, ?_, ?_, ?_, ?_, ?_⟩
  · intro d1 d2 hne1 hne2 h1 h2 hle hlt
    rw [parseRangeHeader_bytes, goSplit_append (not_mem_dash_of_digits h1),
      goSplit_no_sep (not_mem_dash_of_digits h2),
      resolveParts_both d1 d2 hne1 hne2 t,
      parseNumber_digits hne1 h1, parseNumber_digits hne2 h2]
    show validateRange (digitsVal d1) (digitsVal d2) t = _
    exact validateRange_ok (by omega) (by omega) (by omega)
  · intro d hne hdig
    have hrw : parseRangeHeader ("bytes=".toList ++ (d ++ ['-'])) t
        = validateRange (digitsVal d) (t - 1) t := by
      rw [parseRangeHeader_bytes, goSplit_append (not_mem_dash_of_digits hdig),
        show goSplit [] '-' = [[]] from rfl,
        resolveParts_open d hne t, parseNumber_digits hne hdig]
    constructor
    · intro hlt
      rw [hrw]
      exact validateRange_ok (by omega) (by omega) (by omega)
    · intro hge
      rw [hrw]
      exact validateRange_err (by omega)
  · intro d hne hdig
    have hsplit : goSplit ('-' :: d) '-' = [] :: goSplit d '-' := by
      simp [goSplit]
    have hrw : parseRangeHeader ("bytes=".toList ++ '-' :: d) t
        = validateRange (t - digitsVal d) (t - 1) t := by
      rw [parseRangeHeader_bytes, hsplit,
        goSplit_no_sep (not_mem_dash_of_digits hdig),
        resolveParts_suffix d t, parseNumber_digits hne hdig]
    constructor
    · intro hpos hle
      rw [hrw]
      exact validateRange_ok (by omega) (by omega) (by omega)
    · intro hgt
      rw [hrw]
      exact validateRange_err (by omega)
  · intro h hne hpre
    simp only [parseRangeHeader]
    rw [if_neg hne, if_neg hpre]
  · intro rest hrest
    rw [parseRangeHeader_bytes]
    have hparts : ∀ p ∈ goSplit rest '-', ∀ c ∈ p, goIsDigit c = false :=
      fun p hp c hc => hrest c (goSplit_mem_mem p hp c hc)
    rcases hg : goSplit rest '-' with _ | ⟨p0, _ | ⟨p1, _ | ⟨p2, tl⟩⟩⟩
    · rfl
    · rfl
    · have h0 := hparts p0 (by rw [hg]; simp)
      have h1 := hparts p1 (by rw [hg]; simp)
      by_cases hp0 : p0 = []
      · subst hp0
        rw [resolveParts_suffix p1 t, parseNumber_no_digit h1]
      · by_cases hp1 : p1 = []
        · subst hp1
          rw [resolveParts_open p0 hp0 t, parseNumber_no_digit h0]
        · rw [resolveParts_both p0 p1 hp0 hp1 t, parseNumber_no_digit h0]
    · rfl

theorem c1_range_resolver_amended_witness :
    parseRangeHeader [] 10 = .ok (0, 9) ∧
    parseRangeHeader ("bytes=".toList ++ (['3'] ++ '-' :: ['7'])) 10
      = .ok (3, 7) ∧
    parseRangeHeader ("bytes=".toList ++ (['7'] ++ ['-'])) 10 = .ok (7, 9) ∧
    parseRangeHeader ("bytes=".toList ++ (['9', '9'] ++ ['-'])) 10
      = .error () ∧
    parseRangeHeader ("bytes=".toList ++ '-' :: ['4']) 10 = .ok (6, 9) ∧
    parseRangeHeader ("bytes=".toList ++ '-' :: ['9', '9']) 10 = .error () ∧
    parseRangeHeader ("bits=0-5".toList) 10 = .error () ∧
    parseRangeHeader ("bytes=".toList ++ "x-y".toList) 10 = .error () := by
  have h := c1_range_resolver_amended 10 (by norm_num)
  refine ⟨h.1, ?_, ?_, ?_, ?_, ?_, ?_, ?_⟩
  · exact h.2.1 ['3'] ['7'] (by decide) (by decide) (by decide) (by decide)
      (by decide) (by decide)
  · exact (h.2.2.1 ['7'] (by decide) (by decide)).1 (by decide)
  · exact (h.2.2.1 ['9', '9'] (by decide) (by decide)).2 (by decide)
  · exact (h.2.2.2.1 ['4'] (by decide) (by decide)).1 (by decide) (by decide)
  · exact (h.2.2.2.1 ['9', '9'] (by decide) (by decide)).2 (by decide)
  · exact h.2.2.2.2.1 ("bits=0-5".toList) (by decide) (by decide)
  · exact h.2.2.2.2.2 ("x-y".toList) (by decide)

/-! ## Store invariant (claim C5) -/

theorem AddVideo_videos (db : InMemoryDB) (v : Video) :
    (AddVideo db v).videos = mapInsert db.videos v.id v := rfl

theorem AddVideo_nameIndex (db : InMemoryDB) (v : Video) :
    (AddVideo db v).nameIndex = mapInsert db.nameIndex v.name v.id := rfl

theorem AddVideo_latestID (db : InMemoryDB) (v : Video) :
    (AddVideo db v).latestID = v.id := rfl

theorem DeleteVideo_none {db : InMemoryDB} {id : String}
    (h : mapGet db.videos id = none) : DeleteVideo db id = (db, false) := by
  simp [DeleteVideo, h]

theorem DeleteVideo_some {db : InMemoryDB} {id : String} {video : Video}
    (h : mapGet db.videos id = some video) :
    (DeleteVideo db id).1.videos = mapDelete db.videos id ∧
    (DeleteVideo db id).1.nameIndex = mapDelete db.nameIndex video.name ∧
    (DeleteVideo db id).1.latestID =
      (if db.latestID = id then rederiveLatest (mapDelete db.videos id)
        else db.latestID) := by
  refine ⟨?_, ?_, ?_⟩ <;> simp [DeleteVideo, h]

theorem latestStep_cases (L : List (String × Video)) (b : String)
    (p : String × Video) : latestStep L b p = b ∨ latestStep L b p = p.1 := by
  unfold latestStep
  split_ifs <;> simp

theorem foldl_latestStep_mem (L : List (String × Video)) :
    ∀ (l : List (String × Video)) (b : String), ¬ b = "" →
    (∀ p ∈ l, ¬ p.1 = "") →
    ¬ l.foldl (latestStep L) b = "" ∧
      (l.foldl (latestStep L) b = b ∨
        ∃ p ∈ l, l.foldl (latestStep L) b = p.1) := by
  intro l
  induction l with
  | nil =>
    intro b hb _
    exact ⟨hb, Or.inl rfl⟩
  | cons q rest ih =>
    intro b hb hall
    have hq : ¬ q.1 = "" := hall q (by simp)
    have hstep := latestStep_cases L b q
    have hb2 : ¬ latestStep L b q = "" := by
      rcases hstep with h | h
      · rw [h]; exact hb
      · rw [h]; exact hq
    obtain ⟨h1, h2⟩ := ih (latestStep L b q) hb2
      (fun p hp => hall p (List.mem_cons_of_mem _ hp))
    rw [List.foldl_cons]
    refine ⟨h1, ?_⟩
    rcases h2 with h2 | ⟨p, hp, hpe⟩
    · rcases hstep with h | h
      · exact Or.inl (by rw [h2, h])
      · exact Or.inr ⟨q, by simp, by rw [h2, h]⟩
    · exact Or.inr ⟨p, List.mem_cons_of_mem _ hp, hpe⟩

theorem rederiveLatest_mem (l : List (String × Video)) (hne : ¬ l = [])
    (hall : ∀ p ∈ l, ¬ p.1 = "") :
    ¬ rederiveLatest l = "" ∧ ∃ p ∈ l, rederiveLatest l = p.1 := by
  cases l with
  | nil => exact absurd rfl hne
  | cons q rest =>
    have hq : ¬ q.1 = "" := hall q (by simp)
    have hfirst : latestStep (q :: rest) "" q = q.1 := by
      unfold latestStep
      rw [if_pos rfl]
    unfold rederiveLatest
    rw [List.foldl_cons, hfirst]
    obtain ⟨h1, h2⟩ := foldl_latestStep_mem (q :: rest) rest q.1 hq
      (fun p hp => hall p (List.mem_cons_of_mem _ hp))
    refine ⟨h1, ?_⟩
    rcases h2 with h2 | ⟨p, hp, hpe⟩
    · exact ⟨q, by simp, h2⟩
    · exact ⟨p, List.mem_cons_of_mem _ hp, hpe⟩

theorem dbinv_empty : DBInv emptyDB :=
  ⟨fun _ _ h => by simp [emptyDB, mapGet] at h,
   fun _ hp => by simp [emptyDB] at hp,
   fun _ => rfl,
   fun h => absurd rfl h⟩

theorem dbinv_add {db : InMemoryDB} {v : Video} (hinv : DBInv db)
    (hid : ¬ v.id = "") (hfresh : mapGet db.videos v.id = none) :
    DBInv (AddVideo db v) := by
  obtain ⟨inv1, inv2, _inv3, _inv4⟩ := hinv
  refine ⟨?_, ?_, ?_, ?_⟩
  · intro n id hget
    rw [AddVideo_nameIndex] at hget
    by_cases hn : n = v.name
    · subst hn
      rw [mapGet_mapInsert_self] at hget
      obtain rfl : v.id = id := Option.some.inj hget
      exact ⟨v, by rw [AddVideo_videos, mapGet_mapInsert_self], rfl⟩
    · rw [mapGet_mapInsert_ne _ _ _ _ hn] at hget
      obtain ⟨w, hw, hwname⟩ := inv1 n id hget
      have hidne : ¬ id = v.id := by
        intro hh
        subst hh
        rw [hfresh] at hw
        exact Option.noConfusion hw
      refine ⟨w, ?_, hwname⟩
      rw [AddVideo_videos, mapGet_mapInsert_ne _ _ _ _ hidne]
      exact hw
  · intro p hp
    rw [AddVideo_videos] at hp
    rcases mem_mapInsert _ _ _ _ hp with h | h
    · exact inv2 p h
    · rw [h]; exact hid
  · intro h
    rw [AddVideo_latestID] at h
    exact absurd h hid
  · intro _
    exact ⟨v, by rw [AddVideo_latestID, AddVideo_videos, mapGet_mapInsert_self]⟩

theorem dbinv_del {db : InMemoryDB} (hinv : DBInv db) (id : String) :
    DBInv (DeleteVideo db id).1 := by
  obtain ⟨inv1, inv2, inv3, inv4⟩ := hinv
  cases hgot : mapGet db.videos id with
  | none =>
    rw [DeleteVideo_none hgot]
    exact ⟨inv1, inv2, inv3, inv4⟩
  | some video =>
    obtain ⟨hv, hn, hl⟩ := DeleteVideo_some hgot
    have hkeys2 : ∀ p ∈ mapDelete db.videos id, ¬ p.1 = "" :=
      fun p hp => inv2 p (mem_mapDelete _ _ _ hp)
    refine ⟨?_, ?_, ?_, ?_⟩
    · intro n id2 hget
      rw [hn] at hget
      by_cases hname : n = video.name
      · subst hname
        rw [mapGet_mapDelete_self] at hget
        exact Option.noConfusion hget
      · rw [mapGet_mapDelete_ne _ _ _ hname] at hget
        obtain ⟨w, hw, hwname⟩ := inv1 n id2 hget
        have hne2 : ¬ id2 = id := by
          intro hh
          subst hh
          rw [hgot] at hw
          obtain rfl : video = w := Option.some.inj hw
          exact hname hwname.symm
        refine ⟨w, ?_, hwname⟩
        rw [hv, mapGet_mapDelete_ne _ _ _ hne2]
        exact hw
    · intro p hp
      rw [hv] at hp
      exact hkeys2 p hp
    · intro h3
      rw [hl] at h3
      rw [hv]
      by_cases hlat : db.latestID = id
      · rw [if_pos hlat] at h3
        by_contra hne
        exact (rederiveLatest_mem _ hne hkeys2).1 h3
      · rw [if_neg hlat] at h3
        have hemp := inv3 h3
        rw [hemp] at hgot
        exact absurd hgot (by simp [mapGet])
    · intro h4
      rw [hl] at h4 ⊢
      rw [hv]
      by_cases hlat : db.latestID = id
      · rw [if_pos hlat] at h4 ⊢
        have hne : ¬ mapDelete db.videos id = [] := by
          intro hemp
          rw [hemp] at h4
          exact h4 rfl
        obtain ⟨_, p, hp, hpe⟩ := rederiveLatest_mem _ hne hkeys2
        rw [hpe]
        exact mapGet_some_of_mem _ _ ⟨p, hp, rfl⟩
      · rw [if_neg hlat] at h4 ⊢
        obtain ⟨w, hw⟩ := inv4 h4
        refine ⟨w, ?_⟩
        rw [mapGet_mapDelete_ne _ _ _ hlat]
        exact hw

theorem dbinv_applyOps : ∀ (ops : List DBOp) (db : InMemoryDB), DBInv db →
    (addIds ops).Pairwise (fun a b => ¬ a = b) →
    (∀ i ∈ addIds ops, ¬ i = "") →
    (∀ i ∈ addIds ops, mapGet db.videos i = none) →
    DBInv (applyOps db ops) := by
  intro ops
  induction ops with
  | nil =>
    intro db hinv _ _ _
    exact hinv
  | cons op rest ih =>
    intro db hinv hpw hne hfr
    cases op with
    | add v =>
      have hpw2 : (∀ j ∈ addIds rest, ¬ v.id = j) ∧
          (addIds rest).Pairwise (fun a b => ¬ a = b) := by
        simpa [addIds, List.pairwise_cons] using hpw
      have hvne : ¬ v.id = "" := hne v.id (by simp [addIds])
      have hvfr : mapGet db.videos v.id = none := hfr v.id (by simp [addIds])
      apply ih (AddVideo db v) (dbinv_add hinv hvne hvfr) hpw2.2
      · intro i hi
        exact hne i (by simp [addIds, hi])
      · intro i hi
        have hine : ¬ i = v.id := fun hh => hpw2.1 i hi hh.symm
        rw [AddVideo_videos, mapGet_mapInsert_ne _ _ _ _ hine]
        exact hfr i (by simp [addIds, hi])
    | del did =>
      apply ih _ (dbinv_del hinv did) (by simpa [addIds] using hpw)
      · intro i hi
        exact hne i (by simpa [addIds] using hi)
      · intro i hi
        have h0 := hfr i (by simpa [addIds] using hi)
        cases hgot : mapGet db.videos did with
        | none =>
          rw [DeleteVideo_none hgot]
          exact h0
        | some video =>
          rw [(DeleteVideo_some hgot).1]
          by_cases hidel : i = did
          · subst hidel
            rw [mapGet_mapDelete_self]
          · rw [mapGet_mapDelete_ne _ _ _ hidel]
            exact h0

/-- Claim C5 (confirmed): in every store state reachable from the empty store
by inserts with non-empty pairwise-distinct identifiers and arbitrary deletes,
every identifier in the name index is a key of the primary map, the non-empty
latest pointer is a key of the primary map, and `GetLatestVideo` reports
not-found exactly when the primary map is empty. -/
theorem c5_reachable_invariant (ops : List DBOp)
    (hpw : (addIds ops).Pairwise (fun a b => ¬ a = b))
    (hne : ∀ i ∈ addIds ops, ¬ i = "") :
    (∀ n id, mapGet (applyOps emptyDB ops).nameIndex n = some id →
      ∃ v, mapGet (applyOps emptyDB ops).videos id = some v) ∧
    (¬ (applyOps emptyDB ops).latestID = "" →
      ∃ v, mapGet (applyOps emptyDB ops).videos
        (applyOps emptyDB ops).latestID = some v) ∧
    (GetLatestVideo (applyOps emptyDB ops) = none ↔
      (applyOps emptyDB ops).videos = []) := by
  obtain ⟨inv1, inv2, inv3, inv4⟩ := dbinv_applyOps ops emptyDB dbinv_empty
    hpw hne (fun i _ => by simp [emptyDB, mapGet])
  refine ⟨?_, inv4, ?_, ?_⟩
  · intro n id h
    obtain ⟨v, hv, _⟩ := inv1 n id h
    exact ⟨v, hv⟩
  · intro hnone
    by_cases hl : (applyOps emptyDB ops).latestID = ""
    · exact inv3 hl
    · obtain ⟨v, hv⟩ := inv4 hl
      rw [GetLatestVideo, if_neg hl, hv] at hnone
      exact Option.noConfusion hnone
  · intro hempty
    have hl : (applyOps emptyDB ops).latestID = "" := by
      by_contra hl
      obtain ⟨v, hv⟩ := inv4 hl
      rw [hempty] at hv
      simp [mapGet] at hv
    rw [GetLatestVideo, if_pos hl]

theorem c5_reachable_invariant_witness :
    (∀ n id,
      mapGet (applyOps emptyDB
        [DBOp.add ⟨"a", "n", 1, "t", 1, 1, "u"⟩,
         DBOp.add ⟨"b", "n", 2, "t", 2, 2, "u"⟩,
         DBOp.del ("a")]).nameIndex n = some id →
      ∃ v, mapGet (applyOps emptyDB
        [DBOp.add ⟨"a", "n", 1, "t", 1, 1, "u"⟩,
         DBOp.add ⟨"b", "n", 2, "t", 2, 2, "u"⟩,
         DBOp.del ("a")]).videos id = some v) ∧
    (¬ (applyOps emptyDB
        [DBOp.add ⟨"a", "n", 1, "t", 1, 1, "u"⟩,
         DBOp.add ⟨"b", "n", 2, "t", 2, 2, "u"⟩,
         DBOp.del ("a")]).latestID = "" →
      ∃ v, mapGet (applyOps emptyDB
        [DBOp.add ⟨"a", "n", 1, "t", 1, 1, "u"⟩,
         DBOp.add ⟨"b", "n", 2, "t", 2, 2, "u"⟩,
         DBOp.del ("a")]).videos
        (applyOps emptyDB
        [DBOp.add ⟨"a", "n", 1, "t", 1, 1, "u"⟩,
         DBOp.add ⟨"b", "n", 2, "t", 2, 2, "u"⟩,
         DBOp.del ("a")]).latestID = some v) ∧
    (GetLatestVideo (applyOps emptyDB
        [DBOp.add ⟨"a", "n", 1, "t", 1, 1, "u"⟩,
         DBOp.add ⟨"b", "n", 2, "t", 2, 2, "u"⟩,
         DBOp.del ("a")]) = none ↔
      (applyOps emptyDB
        [DBOp.add ⟨"a", "n", 1, "t", 1, 1, "u"⟩,
         DBOp.add ⟨"b", "n", 2, "t", 2, 2, "u"⟩,
         DBOp.del ("a")]).videos = []) := by
  apply c5_reachable_invariant
  · simp [addIds]
  · intro i hi
    simp [addIds] at hi
    rcases hi with rfl | rfl <;> decide

/-! ## Claim C7: latest-pointer re-derivation -/

/-- Claim C7 counterexample: two records sharing the identifier "x" with
strictly increasing creation timestamps; inserting both then deleting "x"
(the most recently inserted record's identifier) empties the store, so
getLatest reports not-found instead of the second-newest record. -/
theorem c7_latest_rederivation_cex :
    GetLatestVideo ((DeleteVideo (insertAll emptyDB
      [⟨"x", "n1", 1, "t", 1, 1, "u"⟩, ⟨"x", "n2", 2, "t", 2, 2, "u"⟩])
      ("x")).1) = none := rfl

theorem insertAll_videos : ∀ (rs : List Video) (db : InMemoryDB),
    (∀ r ∈ rs, mapGet db.videos r.id = none) →
    (rs.map Video.id).Pairwise (fun x y => ¬ x = y) →
    (insertAll db rs).videos = db.videos ++ rs.map (fun r => (r.id, r)) := by
  intro rs
  induction rs with
  | nil =>
    intro db _ _
    simp [insertAll]
  | cons r rest ih =>
    intro db hfr hpw
    have hpw2 : (∀ j ∈ rest.map Video.id, ¬ r.id = j) ∧
        (rest.map Video.id).Pairwise (fun x y => ¬ x = y) := by
      simpa [List.pairwise_cons] using hpw
    have hstep : insertAll db (r :: rest) = insertAll (AddVideo db r) rest :=
      rfl
    have hfr2 : ∀ s ∈ rest, mapGet (AddVideo db r).videos s.id = none := by
      intro s hs
      have hsne : ¬ s.id = r.id := fun hh =>
        hpw2.1 s.id (List.mem_map.mpr ⟨s, hs, rfl⟩) hh.symm
      rw [AddVideo_videos, mapGet_mapInsert_ne _ _ _ _ hsne]
      exact hfr s (List.mem_cons_of_mem _ hs)
    rw [hstep, ih (AddVideo db r) hfr2 hpw2.2, AddVideo_videos,
      mapInsert_fresh _ _ _ (hfr r (by simp))]
    simp

theorem insertAll_latestID_append (db : InMemoryDB) (rs : List Video)
    (b : Video) : (insertAll db (rs ++ [b])).latestID = b.id := by
  have h : insertAll db (rs ++ [b]) = AddVideo (insertAll db rs) b := by
    simp [insertAll, List.foldl_append]
  rw [h, AddVideo_latestID]

theorem mapGet_map_none : ∀ (rs : List Video) (k : String),
    (∀ r ∈ rs, ¬ r.id = k) →
    mapGet (rs.map (fun r => (r.id, r))) k = none := by
  intro rs
  induction rs with
  | nil =>
    intro k _
    rfl
  | cons r rest ih =>
    intro k h
    have hr : ¬ r.id = k := h r (by simp)
    simp only [List.map_cons, mapGet, if_neg hr]
    exact ih k (fun s hs => h s (List.mem_cons_of_mem _ hs))

theorem mapGet_append_left_none {α : Type} :
    ∀ (l1 l2 : List (String × α)) (k : String),
    mapGet l1 k = none → mapGet (l1 ++ l2) k = mapGet l2 k := by
  intro l1
  induction l1 with
  | nil =>
    intro l2 k _
    rfl
  | cons p rest ih =>
    intro l2 k h
    obtain ⟨k2, v⟩ := p
    by_cases h2 : k2 = k
    · simp [mapGet, h2] at h
    · simp only [mapGet, if_neg h2] at h
      simp only [List.cons_append, mapGet, if_neg h2]
      exact ih l2 k h

theorem mapDelete_not_mem {α : Type} : ∀ (l : List (String × α)) (k : String),
    (∀ p ∈ l, ¬ p.1 = k) → mapDelete l k = l := by
  intro l
  induction l with
  | nil =>
    intro k _
    rfl
  | cons p rest ih =>
    intro k h
    obtain ⟨k2, v⟩ := p
    simp only [mapDelete, if_neg (h (k2, v) (by simp))]
    rw [ih k (fun q hq => h q (List.mem_cons_of_mem _ hq))]

theorem mapDelete_append {α : Type} :
    ∀ (l1 l2 : List (String × α)) (k : String),
    mapDelete (l1 ++ l2) k = mapDelete l1 k ++ mapDelete l2 k := by
  intro l1
  induction l1 with
  | nil =>
    intro l2 k
    rfl
  | cons p rest ih =>
    intro l2 k
    obtain ⟨k2, v⟩ := p
    by_cases h2 : k2 = k <;> simp [mapDelete, h2, ih]

theorem mapGet_of_nodup_keys {α : Type} : ∀ (l : List (String × α)),
    (l.map Prod.fst).Pairwise (fun x y => ¬ x = y) →
    ∀ p ∈ l, mapGet l p.1 = some p.2 := by
  intro l
  induction l with
  | nil =>
    intro _ p hp
    simp at hp
  | cons q rest ih =>
    obtain ⟨k, v⟩ := q
    intro hpw p hp
    have hpw2 : (∀ j ∈ rest.map Prod.fst, ¬ k = j) ∧
        (rest.map Prod.fst).Pairwise (fun x y => ¬ x = y) := by
      simpa [List.pairwise_cons] using hpw
    rw [List.mem_cons] at hp
    rcases hp with rfl | hp
    · simp [mapGet]
    · have hne : ¬ k = p.1 := hpw2.1 p.1 (List.mem_map.mpr ⟨p, hp, rfl⟩)
      simp only [mapGet, if_neg hne]
      exact ih hpw2.2 p hp

theorem foldl_latestStep_sorted (L : List (String × Video)) :
    ∀ (l : List (String × Video)) (b : String) (w : Video), ¬ b = "" →
    mapGet L b = some w →
    (∀ p ∈ l, w.createdAt < p.2.createdAt) →
    (∀ p ∈ l, mapGet L p.1 = some p.2 ∧ ¬ p.1 = "") →
    l.Pairwise (fun p q => p.2.createdAt < q.2.createdAt) →
    l.foldl (latestStep L) b = (l.map Prod.fst).getLastD b := by
  intro l
  induction l with
  | nil =>
    intro b w _ _ _ _ _
    rfl
  | cons q rest ih =>
    intro b w hb hw hgt hall hpw
    have hq := hall q (by simp)
    have hlook : lookupCreatedAt L b = w.createdAt := by
      unfold lookupCreatedAt
      rw [hw]
    have hstep : latestStep L b q = q.1 := by
      unfold latestStep
      rw [if_neg hb, hlook, if_pos (hgt q (by simp))]
    have hpw2 : (∀ p ∈ rest, q.2.createdAt < p.2.createdAt) ∧
        rest.Pairwise (fun p q2 => p.2.createdAt < q2.2.createdAt) := by
      simpa [List.pairwise_cons] using hpw
    rw [List.foldl_cons, hstep,
      ih q.1 q.2 hq.2 hq.1 hpw2.1
        (fun p hp => hall p (List.mem_cons_of_mem _ hp)) hpw2.2,
      List.map_cons, List.getLastD_cons]

theorem rederiveLatest_sorted (l : List (String × Video))
    (hall : ∀ p ∈ l, mapGet l p.1 = some p.2 ∧ ¬ p.1 = "")
    (hpw : l.Pairwise (fun p q => p.2.createdAt < q.2.createdAt)) :
    rederiveLatest l = (l.map Prod.fst).getLastD "" := by
  cases l with
  | nil => rfl
  | cons q rest =>
    have hq := hall q (by simp)
    have hfirst : latestStep (q :: rest) "" q = q.1 := by
      unfold latestStep
      rw [if_pos rfl]
    have hpw2 : (∀ p ∈ rest, q.2.createdAt < p.2.createdAt) ∧
        rest.Pairwise (fun p q2 => p.2.createdAt < q2.2.createdAt) := by
      simpa [List.pairwise_cons] using hpw
    unfold rederiveLatest
    rw [List.foldl_cons, hfirst,
      foldl_latestStep_sorted (q :: rest) rest q.1 q.2 hq.2 hq.1 hpw2.1
        (fun p hp => hall p (List.mem_cons_of_mem _ hp)) hpw2.2,
      List.map_cons, List.getLastD_cons]

/-- Claim C7 (amended): inserting any finite sequence of records with
pairwise-distinct NON-EMPTY identifiers and strictly increasing creation
timestamps, then deleting the most recently inserted record's identifier,
leaves `GetLatestVideo` at the record with the second-newest creation
timestamp. -/
theorem c7_latest_rederivation (rs : List Video) (a b : Video)
    (hids : ((rs ++ [a, b]).map Video.id).Pairwise (fun x y => ¬ x = y))
    (hnem : ∀ r ∈ rs ++ [a, b], ¬ r.id = "")
    (hsorted : (rs ++ [a, b]).Pairwise
      (fun u v2 => u.createdAt < v2.createdAt)) :
    GetLatestVideo
      ((DeleteVideo (insertAll emptyDB (rs ++ [a, b])) b.id).1) = some a := by
  have hl : rs ++ [a, b] = (rs ++ [a]) ++ [b] := by simp
  have hsubl : List.Sublist (rs ++ [a]) (rs ++ [a, b]) := by
    apply List.Sublist.append_left
    simp
  have hids_sub : ((rs ++ [a]).map Video.id).Pairwise (fun x y => ¬ x = y) :=
    hids.sublist (hsubl.map Video.id)
  have hsort_sub : (rs ++ [a]).Pairwise
      (fun u v2 => u.createdAt < v2.createdAt) := hsorted.sublist hsubl
  have hfr : ∀ r ∈ rs ++ [a, b], mapGet emptyDB.videos r.id = none :=
    fun r _ => rfl
  have hvid : (insertAll emptyDB (rs ++ [a, b])).videos
      = (rs ++ [a, b]).map (fun r => (r.id, r)) := by
    rw [insertAll_videos (rs ++ [a, b]) emptyDB hfr hids]
    rfl
  have hlat : (insertAll emptyDB (rs ++ [a, b])).latestID = b.id := by
    rw [hl]
    exact insertAll_latestID_append emptyDB (rs ++ [a]) b
  have hids2 : (((rs ++ [a]) ++ [b]).map Video.id).Pairwise
      (fun x y => ¬ x = y) := by
    rw [← hl]
    exact hids
  have hids3 : ((rs ++ [a]).map Video.id ++ [b].map Video.id).Pairwise
      (fun x y => ¬ x = y) := by
    rw [← List.map_append]
    exact hids2
  have hbid_not : ∀ r ∈ rs ++ [a], ¬ r.id = b.id := by
    intro r hr
    exact (List.pairwise_append.mp hids3).2.2 r.id
      (List.mem_map.mpr ⟨r, hr, rfl⟩) b.id (by simp)
  have hgot : mapGet (insertAll emptyDB (rs ++ [a, b])).videos b.id
      = some b := by
    rw [hvid, hl, List.map_append,
      mapGet_append_left_none _ _ _ (mapGet_map_none (rs ++ [a]) b.id hbid_not)]
    simp [mapGet]
  obtain ⟨hv2, _hn2, hl2⟩ := DeleteVideo_some hgot
  have hdel1 : mapDelete ((rs ++ [a]).map (fun r => (r.id, r))) b.id
      = (rs ++ [a]).map (fun r => (r.id, r)) := by
    apply mapDelete_not_mem
    intro p hp
    obtain ⟨r, hr, rfl⟩ := List.mem_map.mp hp
    exact hbid_not r hr
  have hdel2 : mapDelete ([b].map (fun r => (r.id, r))) b.id = [] := by
    simp [mapDelete]
  have hEq : mapDelete (insertAll emptyDB (rs ++ [a, b])).videos b.id
      = (rs ++ [a]).map (fun r => (r.id, r)) := by
    rw [hvid, hl, List.map_append, mapDelete_append, hdel1, hdel2,
      List.append_nil]
  have hkeys : (((rs ++ [a]).map (fun r => (r.id, r))).map Prod.fst).Pairwise
      (fun x y => ¬ x = y) := by
    have hmm : ((rs ++ [a]).map (fun r => (r.id, r))).map Prod.fst
        = (rs ++ [a]).map Video.id := by
      simp [List.map_map, Function.comp]
    rw [hmm]
    exact hids_sub
  have hall2 : ∀ p ∈ (rs ++ [a]).map (fun r => (r.id, r)),
      mapGet ((rs ++ [a]).map (fun r => (r.id, r))) p.1 = some p.2 ∧
        ¬ p.1 = "" := by
    intro p hp
    refine ⟨mapGet_of_nodup_keys _ hkeys p hp, ?_⟩
    obtain ⟨r, hr, rfl⟩ := List.mem_map.mp hp
    exact hnem r (hsubl.subset hr)
  have hsort2 : ((rs ++ [a]).map (fun r => (r.id, r))).Pairwise
      (fun p q => p.2.createdAt < q.2.createdAt) := by
    rw [List.pairwise_map]
    exact hsort_sub
  have hlat2 : (DeleteVideo (insertAll emptyDB (rs ++ [a, b])) b.id).1.latestID
      = a.id := by
    rw [hl2, if_pos hlat, hEq, rederiveLatest_sorted _ hall2 hsort2]
    have hmm : ((rs ++ [a]).map (fun r => (r.id, r))).map Prod.fst
        = rs.map Video.id ++ [a.id] := by
      simp [List.map_map, Function.comp]
    rw [hmm, List.getLastD_concat]
  have hvids2 : (DeleteVideo (insertAll emptyDB (rs ++ [a, b])) b.id).1.videos
      = (rs ++ [a]).map (fun r => (r.id, r)) := by
    rw [hv2, hEq]
  have hids4 : (rs.map Video.id ++ [a].map Video.id).Pairwise
      (fun x y => ¬ x = y) := by
    rw [← List.map_append]
    exact hids_sub
  have haid_not : ∀ r ∈ rs, ¬ r.id = a.id := by
    intro r hr
    exact (List.pairwise_append.mp hids4).2.2 r.id
      (List.mem_map.mpr ⟨r, hr, rfl⟩) a.id (by simp)
  unfold GetLatestVideo
  rw [hlat2, if_neg (hnem a (by simp)), hvids2, List.map_append,
    mapGet_append_left_none _ _ _ (mapGet_map_none rs a.id haid_not)]
  simp [mapGet]

theorem c7_latest_rederivation_witness :
    GetLatestVideo ((DeleteVideo (insertAll emptyDB
      ([] ++ [⟨"a", "n1", 1, "t", 1, 1, "u"⟩, ⟨"b", "n2", 2, "t", 2, 2, "u"⟩]))
      (Video.id ⟨"b", "n2", 2, "t", 2, 2, "u"⟩)).1)
      = some ⟨"a", "n1", 1, "t", 1, 1, "u"⟩ := by
  apply c7_latest_rederivation
  · simp
  · intro r hr
    simp at hr
    rcases hr with rfl | rfl <;> decide
  · simp

end VidServer
